import Mathlib

/-!
# Verification of the indirect-ordering sort engine (`src/main.cpp`, class `Sorter`)

The development embeds the `Sorter` class of the benchmark:

* `data_` (columns of chunks of 64-bit integers) and `orderings_` (the logical index of
  `ValueIndex` row references) are explicit values passed to and returned from each member
  function;
* `ValueAt`, `InitOrderings` and the eight sort members are translated from the source;
* the library routines they call (`std::sort`, `std::stable_sort`, `ska_sort`) are given
  executable models of their documented behaviour.

Definitions come first, then helper lemmas, then the theorems about each member function.
-/

namespace SortingBenchmark

/-! ## Data model -/

/-- Row reference `Sorter::ValueIndex` (two `size_t` fields). -/
structure ValueIndex where
  array_id : Nat
  array_index : Nat
deriving DecidableEq

/-- One `arrow::Int64Array`: an immutable run of 64-bit signed integers. -/
abbrev Chunk := List Int

/-- The member `data_`: `data_[column_id][array_id]` is a chunk. -/
abbrev ChunkStore := List (List Chunk)

/-- Smallest `int64_t`. -/
def INT64_MIN : Int := -(2 ^ 63)

/-- Largest `int64_t`. -/
def INT64_MAX : Int := 2 ^ 63 - 1

/-- The integer is representable as `int64_t`. -/
def IsInt64 (v : Int) : Prop := INT64_MIN ≤ v ∧ v ≤ INT64_MAX

instance (v : Int) : Decidable (IsInt64 v) := by unfold IsInt64; infer_instance

/-- Every stored value is an `int64_t` (the element type of `arrow::Int64Array`). -/
def Int64Store (data : ChunkStore) : Prop :=
  ∀ col ∈ data, ∀ chunk ∈ col, ∀ v ∈ chunk, IsInt64 v

instance (data : ChunkStore) : Decidable (Int64Store data) := by
  unfold Int64Store; infer_instance

/-- Member `Sorter::ValueAt(column_id, value_index)`, lines 60-63:
`data_[column_id][value_index.array_id]->GetView(value_index.array_index)`.
The source does no bounds check; a read outside the store is undefined there and yields `0`
here. The theorems below quantify over indexes whose references are inside the store. -/
def ValueAt (data : ChunkStore) (column_id : Nat) (value_index : ValueIndex) : Int :=
  ((data.getD column_id []).getD value_index.array_id []).getD value_index.array_index 0

/-- The reference designates an existing row of column `column_id`. -/
def ValidRef (data : ChunkStore) (column_id : Nat) (r : ValueIndex) : Prop :=
  r.array_id < (data.getD column_id []).length ∧
    r.array_index < ((data.getD column_id []).getD r.array_id []).length

instance (data : ChunkStore) (c : Nat) (r : ValueIndex) : Decidable (ValidRef data c r) := by
  unfold ValidRef; infer_instance

/-- A logical index over the store: every reference designates a row of column 0. -/
def LogicalIndexOver (data : ChunkStore) (orderings : List ValueIndex) : Prop :=
  ∀ r ∈ orderings, ValidRef data 0 r

instance (data : ChunkStore) (o : List ValueIndex) : Decidable (LogicalIndexOver data o) := by
  unfold LogicalIndexOver; infer_instance

/-- Columns 0 and 1 are aligned: same number of chunks, chunk by chunk the same length. -/
def AlignedColumns (data : ChunkStore) : Prop :=
  (data.getD 0 []).map List.length = (data.getD 1 []).map List.length

instance (data : ChunkStore) : Decidable (AlignedColumns data) := by
  unfold AlignedColumns; infer_instance

/-- Every value of column 1 is non-negative. -/
def Column1NonNeg (data : ChunkStore) : Prop :=
  ∀ chunk ∈ data.getD 1 [], ∀ v ∈ chunk, 0 ≤ v

instance (data : ChunkStore) : Decidable (Column1NonNeg data) := by
  unfold Column1NonNeg; infer_instance

/-- Total row count over all chunks of column 0. -/
def totalRows (data : ChunkStore) : Nat :=
  ((data.getD 0 []).map List.length).sum

/-- Lexicographic order on row references: chunk first, then offset. -/
def refLt (r s : ValueIndex) : Prop :=
  r.array_id < s.array_id ∨ (r.array_id = s.array_id ∧ r.array_index < s.array_index)

instance (r s : ValueIndex) : Decidable (refLt r s) := by unfold refLt; infer_instance

/-! ## `InitOrderings` -/

/-- Member `Sorter::InitOrderings`, lines 128-137. `reserve` reads `data_[0][0]->length()`, which is
undefined when `data_` has no column 0 or column 0 has no chunk: the model returns `none`
there. The two `for` loops run over `array_id = 0 .. data_[0].size()` and
`array_index = 0 .. data_[0][array_id]->length()`, each step doing
`orderings_.emplace_back(ValueIndex({array_id, array_index}))`. -/
def InitOrderings (data : ChunkStore) (orderings : List ValueIndex) :
    Option (List ValueIndex) :=
  match data[0]? with
  | none => none
  | some column0 =>
    match column0[0]? with
    | none => none
    | some _ =>
      some ((List.range column0.length).foldl
        (fun acc array_id =>
          (List.range (column0.getD array_id []).length).foldl
            (fun acc2 array_index => acc2 ++ [ValueIndex.mk array_id array_index]) acc)
        orderings)

/-- The rows of one chunk in ascending offset order. -/
def chunkRefs (array_id len : Nat) : List ValueIndex :=
  (List.range len).map (fun array_index => ValueIndex.mk array_id array_index)

/-- The identity sequence of the store: chunks of column 0 in store order, offsets ascending
within each chunk. -/
def identitySeq (data : ChunkStore) : List ValueIndex :=
  (List.range (data.getD 0 []).length).flatMap
    (fun array_id => chunkRefs array_id (((data.getD 0 []).getD array_id []).length))

/-! ## Library routines -/

/-- Insertion step of the stable sort: `x` goes in front of the first element that the
comparator does not place strictly before it. -/
def stable_insert {α : Type} (comp : α → α → Bool) (x : α) : List α → List α
  | [] => [x]
  | y :: ys => if comp y x then y :: stable_insert comp x ys else x :: y :: ys

/-- Model of `std::stable_sort(first, last, comp)`: for a strict weak ordering `comp` the
standard fixes the result completely (sorted, equivalent elements in their original order),
so the simplest stable algorithm, insertion from the right, stands for it. -/
def std_stable_sort {α : Type} (comp : α → α → Bool) : List α → List α
  | [] => []
  | x :: xs => stable_insert comp x (std_stable_sort comp xs)

/-- Quicksort with an explicit recursion budget. Elements the comparator does not place
after the pivot go in front of it, so equivalent elements may change their relative order. -/
def std_sort_loop {α : Type} (comp : α → α → Bool) : Nat → List α → List α
  | 0, l => l
  | _ + 1, [] => []
  | depth + 1, pivot :: rest =>
    std_sort_loop comp depth (rest.filter (fun x => !comp pivot x)) ++
      pivot :: std_sort_loop comp depth (rest.filter (fun x => comp pivot x))

/-- Model of `std::sort(first, last, comp)`: an unstable comparison sort. The budget is the
length of the range, which the recursion never exhausts on a non-empty range. -/
def std_sort {α : Type} (comp : α → α → Bool) (l : List α) : List α :=
  std_sort_loop comp l.length l

/-- Conversion of a signed key of width `bits` to the unsigned radix key: the sign bit is
flipped, i.e. `2^(bits-1)` is added modulo `2^bits`. -/
def to_unsigned (bits : Nat) (v : Int) : Nat :=
  ((v + 2 ^ (bits - 1)) % 2 ^ bits).toNat

/-- Most-significant-digit-first radix partitioning on the binary digits below `bit`. -/
def ska_sort_bits {α : Type} (key : α → Nat) : Nat → List α → List α
  | 0, l => l
  | _ + 1, [] => []
  | bit + 1, x :: xs =>
    ska_sort_bits key bit ((x :: xs).filter (fun y => !(key y).testBit bit)) ++
      ska_sort_bits key bit ((x :: xs).filter (fun y => (key y).testBit bit))

/-- Modelled from the spec: the header `ska_sort/ska_sort.hpp` that defines
`ska_sort(begin, end, key_fn)` is not among the source files. The spec describes it as a
radix-style distribution sort, keyed by the extracted integer, passing over its digits, with
no user comparator. Distributing on the digits of the key, most significant first, with the
buckets taken in digit order leaves the range in ascending key order; a signed key of width
`bits` is first mapped to its unsigned image. The digit width changes the running time, not
the result on the keys. -/
def ska_sort {α : Type} (bits : Nat) (key_fn : α → Int) (l : List α) : List α :=
  ska_sort_bits (fun x => to_unsigned bits (key_fn x)) bits l

/-! ## Sort members -/

/-- Two's-complement wrap of an integer into the `__int128_t` range. -/
def wrapInt128 (x : Int) : Int := (x + 2 ^ 127) % 2 ^ 128 - 2 ^ 127

/-- The packed key `(static_cast<__int128_t>(a) << 64) + b` of lines 164-165, 189, 217-218:
`a` is widened and shifted, `b` is widened as a signed value and added in `__int128_t`. -/
def packedKey (a b : Int) : Int := wrapInt128 (wrapInt128 (a * 2 ^ 64) + b)

/-- Comparator of `stdSort` and `stdStableSort`: `ValueAt(0, lhs) > ValueAt(0, rhs)`. -/
def comp1key (data : ChunkStore) (lhs rhs : ValueIndex) : Bool :=
  decide (ValueAt data 0 lhs > ValueAt data 0 rhs)

/-- Comparator of `stdSort2keyV1` and `stdStableSort2KeyV1`: packed key of `lhs` `<` packed
key of `rhs`. -/
def comp2keyV1 (data : ChunkStore) (lhs rhs : ValueIndex) : Bool :=
  decide (packedKey (ValueAt data 0 lhs) (ValueAt data 1 lhs) <
    packedKey (ValueAt data 0 rhs) (ValueAt data 1 rhs))

/-- Comparator of `stdSort2keyV2`, line 180. -/
def comp2keyV2 (data : ChunkStore) (lhs rhs : ValueIndex) : Bool :=
  decide (ValueAt data 0 lhs > ValueAt data 0 rhs) ||
    (decide (ValueAt data 0 lhs = ValueAt data 0 rhs) &&
      decide (ValueAt data 1 lhs > ValueAt data 1 rhs))

/-- Comparator of `stdStableSort2KeyV2`, lines 203-210. -/
def compStable2KeyV2 (data : ChunkStore) (lhs rhs : ValueIndex) : Bool :=
  if ValueAt data 0 lhs > ValueAt data 0 rhs then true
  else if ValueAt data 0 lhs = ValueAt data 0 rhs ∧ ValueAt data 1 lhs > ValueAt data 1 rhs
  then true
  else false

/-- Member `Sorter::stdSort`, lines 139-144. -/
def stdSort (data : ChunkStore) (orderings : List ValueIndex) : List ValueIndex :=
  std_sort (comp1key data) orderings

/-- Member `Sorter::stdStableSort`, lines 146-151. -/
def stdStableSort (data : ChunkStore) (orderings : List ValueIndex) : List ValueIndex :=
  std_stable_sort (comp1key data) orderings

/-- Member `Sorter::skaSort`, lines 153-157: the key function returns the `int64_t` column-0 value. -/
def skaSort (data : ChunkStore) (orderings : List ValueIndex) : List ValueIndex :=
  ska_sort 64 (fun value_index => ValueAt data 0 value_index) orderings

/-- Member `Sorter::stdSort2keyV1`, lines 161-173. -/
def stdSort2keyV1 (data : ChunkStore) (orderings : List ValueIndex) : List ValueIndex :=
  std_sort (comp2keyV1 data) orderings

/-- Member `Sorter::stdSort2keyV2`, lines 177-182. -/
def stdSort2keyV2 (data : ChunkStore) (orderings : List ValueIndex) : List ValueIndex :=
  std_sort (comp2keyV2 data) orderings

/-- Member `Sorter::stdStableSort2KeyV1`, lines 184-198. -/
def stdStableSort2KeyV1 (data : ChunkStore) (orderings : List ValueIndex) : List ValueIndex :=
  std_stable_sort (comp2keyV1 data) orderings

/-- Member `Sorter::stdStableSort2KeyV2`, lines 200-212. -/
def stdStableSort2KeyV2 (data : ChunkStore) (orderings : List ValueIndex) : List ValueIndex :=
  std_stable_sort (compStable2KeyV2 data) orderings

/-- Member `Sorter::skaSort2Key`, lines 214-222: the key function returns the `__int128_t` packed
key. -/
def skaSort2Key (data : ChunkStore) (orderings : List ValueIndex) : List ValueIndex :=
  ska_sort 128
    (fun value_index => packedKey (ValueAt data 0 value_index) (ValueAt data 1 value_index))
    orderings

/-! ## Orderings of a logical index -/

/-- Descending order of column 0: `ValueAt(0, index[i]) >= ValueAt(0, index[i+1])`. -/
def Descending1 (data : ChunkStore) (index : List ValueIndex) : Prop :=
  ∀ i, (h : i + 1 < index.length) → ValueAt data 0 index[i] ≥ ValueAt data 0 index[i + 1]

/-- Ascending order of column 0: `ValueAt(0, index[i]) <= ValueAt(0, index[i+1])`. -/
def Ascending1 (data : ChunkStore) (index : List ValueIndex) : Prop :=
  ∀ i, (h : i + 1 < index.length) → ValueAt data 0 index[i] ≤ ValueAt data 0 index[i + 1]

/-- Lexicographically descending order of (column 0, column 1). -/
def Descending2 (data : ChunkStore) (index : List ValueIndex) : Prop :=
  ∀ i, (h : i + 1 < index.length) →
    ValueAt data 0 index[i] > ValueAt data 0 index[i + 1] ∨
      (ValueAt data 0 index[i] = ValueAt data 0 index[i + 1] ∧
        ValueAt data 1 index[i] ≥ ValueAt data 1 index[i + 1])

/-- Lexicographically ascending order of (column 0, column 1). -/
def Ascending2 (data : ChunkStore) (index : List ValueIndex) : Prop :=
  ∀ i, (h : i + 1 < index.length) →
    ValueAt data 0 index[i] < ValueAt data 0 index[i + 1] ∨
      (ValueAt data 0 index[i] = ValueAt data 0 index[i + 1] ∧
        ValueAt data 1 index[i] ≤ ValueAt data 1 index[i + 1])


/-! ## Comparator contract -/

/-- The requirement of `std::sort` and `std::stable_sort` on `comp`: a strict weak ordering,
stated as asymmetry together with transitivity of "not before". -/
def StrictWeak {α : Type} (comp : α → α → Bool) : Prop :=
  (∀ a b, comp a b = true → comp b a = false) ∧
    (∀ a b c, comp a b = false → comp b c = false → comp a c = false)

/-- The postcondition of the comparison sorts: no element is placed after one that the
comparator puts strictly behind it. -/
def SortedBy {α : Type} (comp : α → α → Bool) (l : List α) : Prop :=
  l.Pairwise (fun a b => comp b a = false)

/-- The integer is representable as `__int128_t`. -/
def IsInt128 (x : Int) : Prop := -(2 ^ 127) ≤ x ∧ x ≤ 2 ^ 127 - 1

/-! ## Concrete stores used in the scenarios -/

/-- Two chunks `[10, 2]` and `[7, 9]` of column 0. -/
def twoChunkStore : ChunkStore := [[[10, 2], [7, 9]]]

/-- The single chunk `[5, 3, 3, 1]` of column 0. -/
def tieStore : ChunkStore := [[[5, 3, 3, 1]]]

/-- Chunks of different lengths. -/
def raggedStore : ChunkStore := [[[10, 2, 5], [7]]]

/-- Two aligned columns; column 1 is non-negative. -/
def twoKeyStore : ChunkStore := [[[1, 2, 1]], [[0, 0, 3]]]

/-- Column 0 exists and has no chunk (no data file was read). -/
def noChunkStore : ChunkStore := [[]]

/-- Column 0 has one chunk and that chunk has no row. -/
def emptyChunkStore : ChunkStore := [[[]]]

/-- Row `r` precedes row `s` in the index: `r` stands at some position `i`, `s` at some
later position `j`. -/
def Precedes (r s : ValueIndex) (index : List ValueIndex) : Prop :=
  ∃ i j : Nat, i < j ∧ index[i]? = some r ∧ index[j]? = some s

/-! ## Helper lemmas: `InitOrderings` -/

theorem inner_loop_eq (array_id n : Nat) (acc : List ValueIndex) :
    (List.range n).foldl
      (fun acc2 array_index => acc2 ++ [ValueIndex.mk array_id array_index]) acc =
      acc ++ chunkRefs array_id n := by
  induction n with
  | zero => simp [chunkRefs]
  | succ n ih =>
    simp only [List.range_succ, List.foldl_append, List.foldl_cons, List.foldl_nil, ih,
      chunkRefs, List.map_append, List.map_cons, List.map_nil, List.append_assoc]

theorem outer_loop_eq (len : Nat → Nat) (m : Nat) (acc : List ValueIndex) :
    (List.range m).foldl
      (fun acc array_id =>
        (List.range (len array_id)).foldl
          (fun acc2 array_index => acc2 ++ [ValueIndex.mk array_id array_index]) acc) acc =
      acc ++ (List.range m).flatMap (fun array_id => chunkRefs array_id (len array_id)) := by
  have hstep : (fun (acc : List ValueIndex) array_id =>
        (List.range (len array_id)).foldl
          (fun acc2 array_index => acc2 ++ [ValueIndex.mk array_id array_index]) acc) =
      fun acc array_id => acc ++ chunkRefs array_id (len array_id) := by
    funext a i
    exact inner_loop_eq i (len i) a
  rw [hstep]
  induction m with
  | zero => simp
  | succ m ih =>
    simp only [List.range_succ, List.foldl_append, List.foldl_cons, List.foldl_nil, ih,
      List.flatMap_append, List.flatMap_cons, List.flatMap_nil,
      List.append_nil, List.append_assoc]

theorem getD_zero_of_getElem? {data : ChunkStore} {column0 : List Chunk}
    (h : data[0]? = some column0) : data.getD 0 [] = column0 := by
  simp [List.getD_eq_getElem?_getD, h]

theorem initOrderings_eq (data : ChunkStore) (orderings : List ValueIndex)
    (h : 0 < (data.getD 0 []).length) :
    InitOrderings data orderings = some (orderings ++ identitySeq data) := by
  unfold InitOrderings
  cases hd : data[0]? with
  | none => simp [List.getD_eq_getElem?_getD, hd] at h
  | some column0 =>
    have hc : data.getD 0 [] = column0 := getD_zero_of_getElem? hd
    rw [hc] at h
    cases h0 : column0[0]? with
    | none =>
      rw [List.getElem?_eq_none_iff] at h0
      omega
    | some c =>
      simp only [identitySeq, hc]
      rw [outer_loop_eq (fun array_id => (column0.getD array_id []).length)]
      simp only [h0]

theorem mem_chunkRefs {r : ValueIndex} {array_id len : Nat} :
    r ∈ chunkRefs array_id len ↔ r.array_id = array_id ∧ r.array_index < len := by
  simp only [chunkRefs, List.mem_map, List.mem_range]
  constructor
  · rintro ⟨j, hj, rfl⟩
    exact ⟨rfl, hj⟩
  · rintro ⟨rfl, hj⟩
    exact ⟨r.array_index, hj, rfl⟩

theorem mem_identitySeq {data : ChunkStore} {r : ValueIndex} :
    r ∈ identitySeq data ↔ ValidRef data 0 r := by
  simp only [identitySeq, List.mem_flatMap, List.mem_range, mem_chunkRefs, ValidRef]
  constructor
  · rintro ⟨i, hi, rfl, hj⟩
    exact ⟨hi, hj⟩
  · rintro ⟨hi, hj⟩
    exact ⟨r.array_id, hi, rfl, hj⟩

theorem map_getD_length_range (col : List Chunk) :
    (List.range col.length).map (fun i => (col.getD i []).length) = col.map List.length := by
  apply List.ext_getElem
  · simp
  · intro i h1 h2
    simp only [List.length_map, List.length_range] at h1
    simp [List.getD_eq_getElem?_getD, h1]

theorem length_identitySeq (data : ChunkStore) :
    (identitySeq data).length = totalRows data := by
  simp only [identitySeq, totalRows, List.length_flatMap]
  rw [← map_getD_length_range]
  congr 1
  apply List.map_congr_left
  intro i _
  simp [chunkRefs]

theorem pairwise_identitySeq (data : ChunkStore) :
    (identitySeq data).Pairwise refLt := by
  simp only [identitySeq, List.pairwise_flatMap]
  constructor
  · intro i _
    simp only [chunkRefs, List.pairwise_map]
    exact (List.pairwise_lt_range _).imp (fun h => Or.inr ⟨rfl, h⟩)
  · refine (List.pairwise_lt_range _).imp ?_
    intro i j hij x hx y hy
    rw [mem_chunkRefs] at hx hy
    exact Or.inl (by omega)

theorem refLt_irrefl (r : ValueIndex) : ¬ refLt r r := by
  unfold refLt; omega

theorem nodup_identitySeq (data : ChunkStore) : (identitySeq data).Nodup :=
  (pairwise_identitySeq data).imp (by
    intro a b h hab
    subst hab
    exact refLt_irrefl a h)

/-! ## Helper lemmas: the comparison sorts -/

section Generic
variable {α : Type}

theorem strictWeak_trans {comp : α → α → Bool} (h : StrictWeak comp) {a b c : α}
    (hab : comp a b = true) (hbc : comp b c = true) : comp a c = true := by
  by_contra hac
  have hac' : comp a c = false := by simpa using hac
  have hcb : comp c b = false := h.1 b c hbc
  have := h.2 a c b hac' hcb
  rw [hab] at this
  exact Bool.noConfusion this

theorem stable_insert_perm (comp : α → α → Bool) (x : α) (l : List α) :
    (stable_insert comp x l).Perm (x :: l) := by
  induction l with
  | nil => exact List.Perm.refl _
  | cons y ys ih =>
    unfold stable_insert
    split
    · exact (List.Perm.cons y ih).trans (List.Perm.swap x y ys)
    · exact List.Perm.refl _

theorem std_stable_sort_perm (comp : α → α → Bool) (l : List α) :
    (std_stable_sort comp l).Perm l := by
  induction l with
  | nil => exact List.Perm.refl _
  | cons x xs ih =>
    unfold std_stable_sort
    exact (stable_insert_perm comp x _).trans (List.Perm.cons x ih)

theorem stable_insert_sorted {comp : α → α → Bool} (h : StrictWeak comp) (x : α)
    (l : List α) (hl : SortedBy comp l) : SortedBy comp (stable_insert comp x l) := by
  induction l with
  | nil => simp [stable_insert, SortedBy]
  | cons y ys ih =>
    unfold SortedBy at hl ih ⊢
    rw [List.pairwise_cons] at hl
    unfold stable_insert
    split
    · rename_i hyx
      rw [List.pairwise_cons]
      refine ⟨?_, ih hl.2⟩
      intro z hz
      have hz' := (stable_insert_perm comp x ys).mem_iff.mp hz
      rw [List.mem_cons] at hz'
      rcases hz' with rfl | hzy
      · exact h.1 y z hyx
      · exact hl.1 z hzy
    · rename_i hyx
      have hyx' : comp y x = false := by simpa using hyx
      rw [List.pairwise_cons]
      refine ⟨?_, List.pairwise_cons.mpr hl⟩
      intro z hz
      rw [List.mem_cons] at hz
      rcases hz with rfl | hz
      · exact hyx'
      · exact h.2 z y x (hl.1 z hz) hyx'

theorem std_stable_sort_sorted {comp : α → α → Bool} (h : StrictWeak comp) (l : List α) :
    SortedBy comp (std_stable_sort comp l) := by
  induction l with
  | nil => simp [std_stable_sort, SortedBy]
  | cons x xs ih =>
    unfold std_stable_sort
    exact stable_insert_sorted h x _ ih

theorem std_stable_sort_of_sorted (comp : α → α → Bool) (l : List α)
    (hl : SortedBy comp l) : std_stable_sort comp l = l := by
  induction l with
  | nil => rfl
  | cons x xs ih =>
    unfold SortedBy at hl ih
    rw [List.pairwise_cons] at hl
    unfold std_stable_sort
    rw [ih hl.2]
    cases xs with
    | nil => rfl
    | cons y ys =>
      unfold stable_insert
      rw [hl.1 y (List.mem_cons_self y ys)]
      simp

theorem filter_stable_insert (comp : α → α → Bool) (p : α → Bool)
    (hp : ∀ a b, p a = true → p b = true → comp a b = false) (x : α) (l : List α) :
    (stable_insert comp x l).filter p = (x :: l).filter p := by
  induction l with
  | nil => rfl
  | cons y ys ih =>
    unfold stable_insert
    split
    · rename_i hyx
      by_cases hpx : p x = true
      · by_cases hpy : p y = true
        · rw [hp y x hpy hpx] at hyx
          exact Bool.noConfusion hyx
        · rw [List.filter_cons_of_neg hpy, ih, List.filter_cons_of_pos hpx,
            List.filter_cons_of_pos hpx, List.filter_cons_of_neg hpy]
      · rw [List.filter_cons, ih, List.filter_cons_of_neg hpx, List.filter_cons_of_neg hpx,
          List.filter_cons]
    · rfl

theorem filter_std_stable_sort (comp : α → α → Bool) (p : α → Bool)
    (hp : ∀ a b, p a = true → p b = true → comp a b = false) (l : List α) :
    (std_stable_sort comp l).filter p = l.filter p := by
  induction l with
  | nil => rfl
  | cons x xs ih =>
    unfold std_stable_sort
    rw [filter_stable_insert comp p hp, List.filter_cons, List.filter_cons, ih]

theorem std_sort_loop_perm (comp : α → α → Bool) (depth : Nat) (l : List α) :
    (std_sort_loop comp depth l).Perm l := by
  induction depth generalizing l with
  | zero => exact List.Perm.refl _
  | succ depth ih =>
    cases l with
    | nil => exact List.Perm.refl _
    | cons pivot rest =>
      unfold std_sort_loop
      have h1 := ih (rest.filter (fun x => !comp pivot x))
      have h2 := ih (rest.filter (fun x => comp pivot x))
      have h3 : (rest.filter (fun x => !comp pivot x) ++
          pivot :: rest.filter (fun x => comp pivot x)).Perm (pivot :: rest) := by
        refine List.perm_middle.trans (List.Perm.cons pivot ?_)
        exact List.perm_append_comm.trans (List.filter_append_perm _ rest)
      exact (List.Perm.append h1 (List.Perm.cons pivot h2)).trans h3

theorem std_sort_perm (comp : α → α → Bool) (l : List α) : (std_sort comp l).Perm l :=
  std_sort_loop_perm comp l.length l

theorem std_sort_loop_sorted {comp : α → α → Bool} (h : StrictWeak comp) (depth : Nat)
    (l : List α) (hlen : l.length ≤ depth) : SortedBy comp (std_sort_loop comp depth l) := by
  induction depth generalizing l with
  | zero =>
    have : l = [] := List.length_eq_zero.mp (Nat.le_zero.mp hlen)
    subst this
    simp [std_sort_loop, SortedBy]
  | succ depth ih =>
    cases l with
    | nil => simp [std_sort_loop, SortedBy]
    | cons pivot rest =>
      unfold std_sort_loop
      have hlen' : rest.length ≤ depth := by simpa using hlen
      have hlo := ih (rest.filter (fun x => !comp pivot x))
        (le_trans (List.length_filter_le _ _) hlen')
      have hhi := ih (rest.filter (fun x => comp pivot x))
        (le_trans (List.length_filter_le _ _) hlen')
      unfold SortedBy at hlo hhi ⊢
      rw [List.pairwise_append]
      refine ⟨hlo, ?_, ?_⟩
      · rw [List.pairwise_cons]
        refine ⟨?_, hhi⟩
        intro z hz
        have hz' := (std_sort_loop_perm comp depth _).mem_iff.mp hz
        rw [List.mem_filter] at hz'
        exact h.1 pivot z hz'.2
      · intro a ha b hb
        have ha' := (std_sort_loop_perm comp depth _).mem_iff.mp ha
        rw [List.mem_filter] at ha'
        have hpa : comp pivot a = false := by simpa using ha'.2
        rw [List.mem_cons] at hb
        rcases hb with rfl | hb
        · exact hpa
        · have hb' := (std_sort_loop_perm comp depth _).mem_iff.mp hb
          rw [List.mem_filter] at hb'
          cases hba : comp b a with
          | false => rfl
          | true =>
            have := strictWeak_trans h hb'.2 hba
            rw [hpa] at this
            exact Bool.noConfusion this

theorem std_sort_sorted {comp : α → α → Bool} (h : StrictWeak comp) (l : List α) :
    SortedBy comp (std_sort comp l) :=
  std_sort_loop_sorted h l.length l (le_refl _)

end Generic

/-! ## Helper lemmas: the radix sort -/

section Radix
variable {α : Type}

theorem ska_sort_bits_perm (key : α → Nat) (bit : Nat) (l : List α) :
    (ska_sort_bits key bit l).Perm l := by
  induction bit generalizing l with
  | zero => exact List.Perm.refl _
  | succ bit ih =>
    cases l with
    | nil => exact List.Perm.refl _
    | cons x xs =>
      unfold ska_sort_bits
      refine (List.Perm.append (ih _) (ih _)).trans ?_
      exact List.perm_append_comm.trans
        (List.filter_append_perm (fun y => (key y).testBit bit) (x :: xs))

theorem ska_sort_perm (bits : Nat) (key_fn : α → Int) (l : List α) :
    (ska_sort bits key_fn l).Perm l :=
  ska_sort_bits_perm _ bits l

theorem div_pow_succ_split (n bit : Nat) :
    n / 2 ^ bit = 2 * (n / 2 ^ (bit + 1)) + n / 2 ^ bit % 2 := by
  have h : n / 2 ^ (bit + 1) = n / 2 ^ bit / 2 := by
    rw [pow_succ, Nat.div_div_eq_div_mul]
  rw [h]
  omega

theorem ska_sort_bits_sorted (key : α → Nat) (bit : Nat) (l : List α)
    (hl : ∀ a ∈ l, ∀ b ∈ l, key a / 2 ^ bit = key b / 2 ^ bit) :
    (ska_sort_bits key bit l).Pairwise (fun a b => key a ≤ key b) := by
  induction bit generalizing l with
  | zero =>
    unfold ska_sort_bits
    apply List.pairwise_of_forall_mem_list
    intro a ha b hb
    have := hl a ha b hb
    simp only [pow_zero, Nat.div_one] at this
    exact le_of_eq this
  | succ bit ih =>
    cases l with
    | nil => simp [ska_sort_bits]
    | cons x xs =>
      unfold ska_sort_bits
      have hmemlo : ∀ a, a ∈ (x :: xs).filter (fun y => !(key y).testBit bit) →
          a ∈ x :: xs ∧ key a / 2 ^ bit % 2 = 0 := by
        intro a ha
        rw [List.mem_filter] at ha
        refine ⟨ha.1, ?_⟩
        have h2 := ha.2
        rw [Nat.testBit_to_div_mod] at h2
        simp only [Bool.not_eq_true', decide_eq_false_iff_not] at h2
        omega
      have hmemhi : ∀ a, a ∈ (x :: xs).filter (fun y => (key y).testBit bit) →
          a ∈ x :: xs ∧ key a / 2 ^ bit % 2 = 1 := by
        intro a ha
        rw [List.mem_filter] at ha
        refine ⟨ha.1, ?_⟩
        have h2 := ha.2
        rw [Nat.testBit_to_div_mod] at h2
        simpa using h2
      rw [List.pairwise_append]
      refine ⟨ih _ ?_, ih _ ?_, ?_⟩
      · intro a ha b hb
        have ha' := hmemlo a ha
        have hb' := hmemlo b hb
        have := hl a ha'.1 b hb'.1
        rw [div_pow_succ_split (key a) bit, div_pow_succ_split (key b) bit]
        omega
      · intro a ha b hb
        have ha' := hmemhi a ha
        have hb' := hmemhi b hb
        have := hl a ha'.1 b hb'.1
        rw [div_pow_succ_split (key a) bit, div_pow_succ_split (key b) bit]
        omega
      · intro a ha b hb
        have ha' := hmemlo a ((ska_sort_bits_perm key bit _).mem_iff.mp ha)
        have hb' := hmemhi b ((ska_sort_bits_perm key bit _).mem_iff.mp hb)
        have := hl a ha'.1 b hb'.1
        by_contra hlt
        have hle : key b / 2 ^ bit ≤ key a / 2 ^ bit :=
          Nat.div_le_div_right (Nat.le_of_lt (Nat.lt_of_not_le hlt))
        rw [div_pow_succ_split (key a) bit, div_pow_succ_split (key b) bit] at hle
        omega

theorem to_unsigned_lt (bits : Nat) (v : Int) : to_unsigned bits v < 2 ^ bits := by
  unfold to_unsigned
  have hpos : (0 : Int) < 2 ^ bits := by positivity
  have h1 := Int.emod_lt_of_pos (v + 2 ^ (bits - 1)) hpos
  have h2 := Int.emod_nonneg (v + 2 ^ (bits - 1)) (ne_of_gt hpos)
  have h3 : (((v + 2 ^ (bits - 1)) % 2 ^ bits).toNat : Int) < ((2 ^ bits : Nat) : Int) := by
    rw [Int.toNat_of_nonneg h2]
    push_cast
    exact h1
  exact_mod_cast h3

theorem to_unsigned_le_of_le (bits : Nat) (hb : 0 < bits) (v w : Int)
    (hv : -(2 ^ (bits - 1)) ≤ v ∧ v < 2 ^ (bits - 1))
    (hw : -(2 ^ (bits - 1)) ≤ w ∧ w < 2 ^ (bits - 1))
    (h : to_unsigned bits v ≤ to_unsigned bits w) : v ≤ w := by
  unfold to_unsigned at h
  have hpow : (2 : Int) ^ bits = 2 * 2 ^ (bits - 1) := by
    obtain ⟨k, rfl⟩ : ∃ k, bits = k + 1 := ⟨bits - 1, by omega⟩
    simp [pow_succ, mul_comm]
  generalize (2 : Int) ^ (bits - 1) = P at hv hw h hpow
  rw [hpow] at h
  rw [Int.emod_eq_of_lt (by omega) (by omega), Int.emod_eq_of_lt (by omega) (by omega)] at h
  omega

theorem ska_sort_sorted (bits : Nat) (hb : 0 < bits) (key_fn : α → Int) (l : List α)
    (hl : ∀ a ∈ l, -(2 ^ (bits - 1)) ≤ key_fn a ∧ key_fn a < 2 ^ (bits - 1)) :
    (ska_sort bits key_fn l).Pairwise (fun a b => key_fn a ≤ key_fn b) := by
  unfold ska_sort
  have hs := ska_sort_bits_sorted (fun x => to_unsigned bits (key_fn x)) bits l (by
    intro a _ b _
    rw [Nat.div_eq_of_lt (to_unsigned_lt bits _), Nat.div_eq_of_lt (to_unsigned_lt bits _)])
  have hmem : ∀ a, a ∈ ska_sort_bits (fun x => to_unsigned bits (key_fn x)) bits l → a ∈ l :=
    fun a ha => (ska_sort_bits_perm _ bits l).mem_iff.mp ha
  exact List.Pairwise.imp_of_mem
    (fun {a b} ha hb' hab => to_unsigned_le_of_le bits hb _ _ (hl a (hmem a ha))
      (hl b (hmem b hb')) hab) hs

end Radix

/-! ## Helper lemmas: values, packed keys and comparators -/

theorem isInt64_valueAt {data : ChunkStore} (hd : Int64Store data) (column_id : Nat)
    (r : ValueIndex) : IsInt64 (ValueAt data column_id r) := by
  unfold ValueAt
  have hzero : IsInt64 0 := by decide
  by_cases h1 : column_id < data.length
  · rw [List.getD_eq_getElem data [] h1]
    by_cases h2 : r.array_id < data[column_id].length
    · rw [List.getD_eq_getElem _ [] h2]
      by_cases h3 : r.array_index < data[column_id][r.array_id].length
      · rw [List.getD_eq_getElem _ 0 h3]
        exact hd _ (List.getElem_mem h1) _ (List.getElem_mem h2) _ (List.getElem_mem h3)
      · rw [List.getD_eq_default _ 0 (Nat.le_of_not_lt h3)]
        exact hzero
    · rw [List.getD_eq_default _ [] (Nat.le_of_not_lt h2)]
      exact hzero
  · rw [List.getD_eq_default _ [] (Nat.le_of_not_lt h1)]
    exact hzero

theorem column1_nonneg_valueAt {data : ChunkStore} (hd : Column1NonNeg data)
    (r : ValueIndex) : 0 ≤ ValueAt data 1 r := by
  unfold ValueAt
  by_cases h2 : r.array_id < (data.getD 1 []).length
  · rw [List.getD_eq_getElem _ [] h2]
    by_cases h3 : r.array_index < (data.getD 1 [])[r.array_id].length
    · rw [List.getD_eq_getElem _ 0 h3]
      exact hd _ (List.getElem_mem h2) _ (List.getElem_mem h3)
    · rw [List.getD_eq_default _ 0 (Nat.le_of_not_lt h3)]
  · rw [List.getD_eq_default _ [] (Nat.le_of_not_lt h2)]
    simp

theorem wrapInt128_of_isInt128 {x : Int} (h : IsInt128 x) : wrapInt128 x = x := by
  unfold IsInt128 at h
  unfold wrapInt128
  rw [Int.emod_eq_of_lt (by omega) (by omega)]
  omega

theorem wrapInt128_isInt128 (x : Int) : IsInt128 (wrapInt128 x) := by
  unfold IsInt128 wrapInt128
  have h1 := Int.emod_lt_of_pos (x + 2 ^ 127) (show (0 : Int) < 2 ^ 128 by norm_num)
  have h2 := Int.emod_nonneg (x + 2 ^ 127) (show (2 : Int) ^ 128 ≠ 0 by norm_num)
  generalize (x + 2 ^ 127) % 2 ^ 128 = y at h1 h2 ⊢
  omega

theorem isInt128_shift {a : Int} (ha : IsInt64 a) : IsInt128 (a * 2 ^ 64) := by
  unfold IsInt64 INT64_MIN INT64_MAX at ha
  unfold IsInt128
  omega

theorem isInt128_packed_iff {a b : Int} (ha : IsInt64 a) (hb : IsInt64 b) :
    IsInt128 (a * 2 ^ 64 + b) ↔ ¬ (a = INT64_MIN ∧ b < 0) := by
  unfold IsInt64 INT64_MIN INT64_MAX at ha hb
  unfold IsInt128 INT64_MIN
  omega

theorem packedKey_exact {a b : Int} (ha : IsInt64 a) (hb : IsInt64 b)
    (h : ¬ (a = INT64_MIN ∧ b < 0)) : packedKey a b = a * 2 ^ 64 + b := by
  unfold packedKey
  rw [wrapInt128_of_isInt128 (isInt128_shift ha),
    wrapInt128_of_isInt128 ((isInt128_packed_iff ha hb).mpr h)]

theorem packed_lt_iff_lex {a1 b1 a2 b2 : Int} (hb1 : IsInt64 b1) (hb2 : IsInt64 b2) :
    a1 * 2 ^ 64 + b1 < a2 * 2 ^ 64 + b2 ↔ a1 < a2 ∨ (a1 = a2 ∧ b1 < b2) := by
  unfold IsInt64 INT64_MIN INT64_MAX at hb1 hb2
  omega

theorem strictWeak_of_key {α : Type} (key : α → Int) (comp : α → α → Bool)
    (h : ∀ a b, comp a b = true ↔ key a < key b) : StrictWeak comp := by
  have hf : ∀ a b, comp a b = false ↔ key b ≤ key a := by
    intro a b
    rw [← not_lt, ← h a b]
    simp
  constructor
  · intro a b hab
    rw [hf]
    exact le_of_lt ((h a b).mp hab)
  · intro a b c hab hbc
    rw [hf] at hab hbc ⊢
    exact le_trans hbc hab

theorem comp1key_strictWeak (data : ChunkStore) : StrictWeak (comp1key data) :=
  strictWeak_of_key (fun r => -ValueAt data 0 r) _ (by
    intro a b
    simp only [comp1key, decide_eq_true_eq]
    omega)

theorem comp2keyV1_strictWeak (data : ChunkStore) : StrictWeak (comp2keyV1 data) :=
  strictWeak_of_key (fun r => packedKey (ValueAt data 0 r) (ValueAt data 1 r)) _ (by
    intro a b
    simp only [comp2keyV1, decide_eq_true_eq])

theorem comp2keyV2_iff (data : ChunkStore) (l r : ValueIndex) :
    comp2keyV2 data l r = true ↔
      ValueAt data 0 l > ValueAt data 0 r ∨
        (ValueAt data 0 l = ValueAt data 0 r ∧ ValueAt data 1 l > ValueAt data 1 r) := by
  simp [comp2keyV2]

theorem compStable2KeyV2_eq (data : ChunkStore) :
    compStable2KeyV2 data = comp2keyV2 data := by
  funext l r
  unfold compStable2KeyV2 comp2keyV2
  by_cases h1 : ValueAt data 0 l > ValueAt data 0 r
  · simp [h1]
  · by_cases h2 : ValueAt data 0 l = ValueAt data 0 r ∧ ValueAt data 1 l > ValueAt data 1 r
    · simp [h1, h2]
    · rw [if_neg h1, if_neg h2]
      rw [not_and] at h2
      by_cases h3 : ValueAt data 0 l = ValueAt data 0 r
      · simp [h1, h3, h2 h3]
      · simp [h1, h3]

theorem comp2keyV2_strictWeak (data : ChunkStore) : StrictWeak (comp2keyV2 data) := by
  have hf : ∀ l r, comp2keyV2 data l r = false ↔
      ¬ (ValueAt data 0 l > ValueAt data 0 r ∨
        (ValueAt data 0 l = ValueAt data 0 r ∧ ValueAt data 1 l > ValueAt data 1 r)) := by
    intro l r
    rw [← comp2keyV2_iff]
    simp
  constructor
  · intro a b hab
    rw [comp2keyV2_iff] at hab
    rw [hf]
    omega
  · intro a b c hab hbc
    rw [hf] at hab hbc ⊢
    omega

theorem comp2keyV1_eq_swap {data : ChunkStore} (hd : Int64Store data)
    (hn : Column1NonNeg data) (l r : ValueIndex) :
    comp2keyV1 data l r = comp2keyV2 data r l := by
  have hl0 := isInt64_valueAt hd 0 l
  have hl1 := isInt64_valueAt hd 1 l
  have hr0 := isInt64_valueAt hd 0 r
  have hr1 := isInt64_valueAt hd 1 r
  have hnl := column1_nonneg_valueAt hn l
  have hnr := column1_nonneg_valueAt hn r
  rw [Bool.eq_iff_iff, comp2keyV2_iff]
  unfold comp2keyV1
  rw [decide_eq_true_eq, packedKey_exact hl0 hl1 (by omega), packedKey_exact hr0 hr1 (by omega),
    packed_lt_iff_lex hl1 hr1]
  constructor
  · rintro (h | ⟨h1, h2⟩)
    · exact Or.inl h
    · exact Or.inr ⟨h1.symm, h2⟩
  · rintro (h | ⟨h1, h2⟩)
    · exact Or.inl h
    · exact Or.inr ⟨h1.symm, h2⟩

/-! ## Helper lemmas: adjacent form of the orderings -/

theorem adjacent_of_pairwise {R : ValueIndex → ValueIndex → Prop} {l : List ValueIndex}
    (h : l.Pairwise R) (i : Nat) (hi : i + 1 < l.length) : R l[i] l[i + 1] :=
  List.pairwise_iff_getElem.mp h i (i + 1) (by omega) hi (Nat.lt_succ_self i)

theorem pairwise_of_adjacent {R : ValueIndex → ValueIndex → Prop}
    (htrans : ∀ a b c, R a b → R b c → R a c) (l : List ValueIndex)
    (h : ∀ i, (hi : i + 1 < l.length) → R l[i] l[i + 1]) : l.Pairwise R := by
  induction l with
  | nil => exact List.Pairwise.nil
  | cons x xs ih =>
    have hxs : xs.Pairwise R := ih (fun i hi => by
      have := h (i + 1) (by simpa using hi)
      simpa using this)
    rw [List.pairwise_cons]
    refine ⟨?_, hxs⟩
    cases xs with
    | nil => intro b hb; cases hb
    | cons y ys =>
      have hxy : R x y := by
        have := h 0 (by simp)
        simpa using this
      intro b hb
      rw [List.mem_cons] at hb
      rcases hb with rfl | hb
      · exact hxy
      · exact htrans x y b hxy ((List.pairwise_cons.mp hxs).1 b hb)

theorem descending1_of_sortedBy {data : ChunkStore} {l : List ValueIndex}
    (h : SortedBy (comp1key data) l) : Descending1 data l := by
  intro i hi
  have := adjacent_of_pairwise h i hi
  simp only [comp1key, decide_eq_false_iff_not] at this
  omega

theorem sortedBy_of_descending1 {data : ChunkStore} {l : List ValueIndex}
    (h : Descending1 data l) : SortedBy (comp1key data) l := by
  have hp : l.Pairwise (fun a b => ValueAt data 0 a ≥ ValueAt data 0 b) :=
    @pairwise_of_adjacent (fun a b => ValueAt data 0 a ≥ ValueAt data 0 b)
      (fun a b c hab hbc => le_trans hbc hab) l h
  refine hp.imp ?_
  intro a b hab
  simp only [comp1key, decide_eq_false_iff_not]
  omega

theorem descending2_of_sortedBy {data : ChunkStore} {l : List ValueIndex}
    (h : SortedBy (comp2keyV2 data) l) : Descending2 data l := by
  intro i hi
  have := adjacent_of_pairwise h i hi
  simp only [Bool.eq_false_iff, ne_eq, comp2keyV2_iff] at this
  omega

theorem ascending2_of_sortedBy {data : ChunkStore} (hd : Int64Store data)
    (hn : Column1NonNeg data) {l : List ValueIndex}
    (h : SortedBy (comp2keyV1 data) l) : Ascending2 data l := by
  intro i hi
  have := adjacent_of_pairwise h i hi
  simp only [comp2keyV1_eq_swap hd hn, Bool.eq_false_iff, ne_eq, comp2keyV2_iff] at this
  omega

/-! ## Helper lemma: precedence as a subsequence -/

theorem precedes_iff_sublist (r s : ValueIndex) (l : List ValueIndex) :
    Precedes r s l ↔ List.Sublist [r, s] l := by
  induction l with
  | nil =>
    constructor
    · rintro ⟨i, j, _, hi, _⟩
      simp at hi
    · intro h
      cases h
  | cons x xs ih =>
    constructor
    · rintro ⟨i, j, hij, hi, hj⟩
      cases j with
      | zero => omega
      | succ j =>
        rw [List.getElem?_cons_succ] at hj
        cases i with
        | zero =>
          rw [List.getElem?_cons_zero] at hi
          cases hi
          have hs : s ∈ xs := List.mem_iff_getElem?.mpr ⟨j, hj⟩
          exact List.Sublist.cons₂ _ (List.singleton_sublist.mpr hs)
        | succ i =>
          rw [List.getElem?_cons_succ] at hi
          exact List.Sublist.cons x (ih.mp ⟨i, j, by omega, hi, hj⟩)
    · intro h
      cases h with
      | cons _ h =>
        obtain ⟨i, j, hij, hi, hj⟩ := ih.mpr h
        exact ⟨i + 1, j + 1, by omega, by simpa using hi, by simpa using hj⟩
      | cons₂ _ h =>
        have hs : s ∈ xs := List.singleton_sublist.mp h
        obtain ⟨j, hj⟩ := List.mem_iff_getElem?.mp hs
        exact ⟨0, j + 1, by omega, by simp, by simpa using hj⟩

/-! ## Single-key sorts -/

set_option maxRecDepth 100000

/-- C1. For every chunk store and every logical index over it, the index returned by
`stdSort` and the index returned by `stdStableSort` are in descending order of column 0:
`ValueAt(0, index[i]) >= ValueAt(0, index[i+1])` whenever `i + 1 < length`. -/
theorem stdSort_stdStableSort_descending (data : ChunkStore) (orderings : List ValueIndex)
    (_h : LogicalIndexOver data orderings) :
    Descending1 data (stdSort data orderings) ∧
      Descending1 data (stdStableSort data orderings) :=
  ⟨descending1_of_sortedBy (std_sort_sorted (comp1key_strictWeak data) orderings),
    descending1_of_sortedBy (std_stable_sort_sorted (comp1key_strictWeak data) orderings)⟩

/-- Two-chunk scenario of C1: chunks `[10, 2]` and `[7, 9]` indexed by `InitOrderings`
resolve to `[10, 9, 7, 2]` after either comparison sort. -/
theorem stdSort_stdStableSort_descending_witness :
    InitOrderings twoChunkStore [] = some (identitySeq twoChunkStore) ∧
      LogicalIndexOver twoChunkStore (identitySeq twoChunkStore) ∧
      (stdSort twoChunkStore (identitySeq twoChunkStore)).map (ValueAt twoChunkStore 0) =
        [10, 9, 7, 2] ∧
      (stdStableSort twoChunkStore (identitySeq twoChunkStore)).map (ValueAt twoChunkStore 0) =
        [10, 9, 7, 2] ∧
      Descending1 twoChunkStore (stdSort twoChunkStore (identitySeq twoChunkStore)) ∧
      Descending1 twoChunkStore (stdStableSort twoChunkStore (identitySeq twoChunkStore)) :=
  ⟨by decide, by decide, by decide, by decide,
    stdSort_stdStableSort_descending twoChunkStore (identitySeq twoChunkStore) (by decide)⟩

/-- What `skaSort` does on every input: for every chunk store of 64-bit values and every
logical index over it, the index it returns is in ascending order of column 0, so the
departure from the descending order of `stdSort` is not particular to one store. -/
theorem skaSort_ascending (data : ChunkStore) (orderings : List ValueIndex)
    (hd : Int64Store data) (_h : LogicalIndexOver data orderings) :
    Ascending1 data (skaSort data orderings) := by
  have hs := ska_sort_sorted 64 (by decide) (fun value_index => ValueAt data 0 value_index)
    orderings (by
      intro a _
      have := isInt64_valueAt hd 0 a
      unfold IsInt64 INT64_MIN INT64_MAX at this
      constructor
      · exact this.1
      · have h2 := this.2
        show ValueAt data 0 a < 2 ^ 63
        omega)
  intro i hi
  exact adjacent_of_pairwise hs i hi

/-! ## Permutation invariant -/

/-- C3. For every chunk store and every logical index over it, each of the eight sort
members returns a permutation of the index it was given: the same multiset of row
references, hence the same length, nothing duplicated and nothing lost. -/
theorem sorts_permute (data : ChunkStore) (orderings : List ValueIndex)
    (_h : LogicalIndexOver data orderings) :
    (stdSort data orderings).Perm orderings ∧
      (stdStableSort data orderings).Perm orderings ∧
      (skaSort data orderings).Perm orderings ∧
      (stdSort2keyV1 data orderings).Perm orderings ∧
      (stdSort2keyV2 data orderings).Perm orderings ∧
      (stdStableSort2KeyV1 data orderings).Perm orderings ∧
      (stdStableSort2KeyV2 data orderings).Perm orderings ∧
      (skaSort2Key data orderings).Perm orderings :=
  ⟨std_sort_perm _ _, std_stable_sort_perm _ _, ska_sort_perm _ _ _, std_sort_perm _ _,
    std_sort_perm _ _, std_stable_sort_perm _ _, std_stable_sort_perm _ _,
    ska_sort_perm _ _ _⟩

/-- C3 on the two-key store. -/
theorem sorts_permute_witness :
    LogicalIndexOver twoKeyStore (identitySeq twoKeyStore) ∧
      (stdSort twoKeyStore (identitySeq twoKeyStore)).length = 3 ∧
      (skaSort2Key twoKeyStore (identitySeq twoKeyStore)).Perm (identitySeq twoKeyStore) :=
  ⟨by decide,
    (sorts_permute twoKeyStore (identitySeq twoKeyStore) (by decide)).1.length_eq,
    (sorts_permute twoKeyStore (identitySeq twoKeyStore) (by decide)).2.2.2.2.2.2.2⟩

/-! ## `InitOrderings` -/

/-- C4. For every chunk store with at least one column-0 chunk, `InitOrderings` on the empty
index returns an index whose length is the total row count of column 0, in which every valid
reference occurs exactly once and nothing else occurs, and which is strictly ascending in
the lexicographic order (chunk, offset). -/
theorem initOrderings_identity (data : ChunkStore) (h : 0 < (data.getD 0 []).length) :
    ∃ index, InitOrderings data [] = some index ∧
      index.length = totalRows data ∧
      (∀ r, ValidRef data 0 r → index.count r = 1) ∧
      (∀ r ∈ index, ValidRef data 0 r) ∧
      index.Pairwise refLt := by
  refine ⟨identitySeq data, ?_, length_identitySeq data, ?_, ?_, pairwise_identitySeq data⟩
  · rw [initOrderings_eq data [] h, List.nil_append]
  · intro r hr
    exact List.count_eq_one_of_mem (nodup_identitySeq data) (mem_identitySeq.mpr hr)
  · intro r hr
    exact mem_identitySeq.mp hr

/-- C4 on a store whose chunks have different lengths. -/
theorem initOrderings_identity_witness :
    0 < (raggedStore.getD 0 []).length ∧
      InitOrderings raggedStore [] = some
        [ValueIndex.mk 0 0, ValueIndex.mk 0 1, ValueIndex.mk 0 2, ValueIndex.mk 1 0] ∧
      ∃ index, InitOrderings raggedStore [] = some index ∧
        index.length = totalRows raggedStore ∧
        (∀ r, ValidRef raggedStore 0 r → index.count r = 1) ∧
        (∀ r ∈ index, ValidRef raggedStore 0 r) ∧
        index.Pairwise refLt :=
  ⟨by decide, by decide, initOrderings_identity raggedStore (by decide)⟩

/-! ## Two-key sorts -/

/-- C5 at the two-key store: with column 1 non-negative the packed comparator and the
two-step comparator disagree on the rows `(1, 0)` and `(2, 0)`, and the two stable two-key
sorts return different indexes. -/
theorem comp2keyV1_ne_comp2keyV2 :
    Int64Store twoKeyStore ∧ Column1NonNeg twoKeyStore ∧ AlignedColumns twoKeyStore ∧
      LogicalIndexOver twoKeyStore (identitySeq twoKeyStore) ∧
      comp2keyV1 twoKeyStore (ValueIndex.mk 0 0) (ValueIndex.mk 0 1) = true ∧
      comp2keyV2 twoKeyStore (ValueIndex.mk 0 0) (ValueIndex.mk 0 1) = false ∧
      compStable2KeyV2 twoKeyStore (ValueIndex.mk 0 0) (ValueIndex.mk 0 1) = false ∧
      stdStableSort2KeyV1 twoKeyStore (identitySeq twoKeyStore) =
        [ValueIndex.mk 0 0, ValueIndex.mk 0 2, ValueIndex.mk 0 1] ∧
      stdStableSort2KeyV2 twoKeyStore (identitySeq twoKeyStore) =
        [ValueIndex.mk 0 1, ValueIndex.mk 0 2, ValueIndex.mk 0 0] ∧
      stdStableSort2KeyV1 twoKeyStore (identitySeq twoKeyStore) ≠
        stdStableSort2KeyV2 twoKeyStore (identitySeq twoKeyStore) := by
  decide

/-- What the packed comparator does on every input: for every chunk store of 64-bit values
with non-negative column 1, `comp2keyV1` on `(lhs, rhs)` returns what the two-step comparators
return on `(rhs, lhs)`, so `stdStableSort2KeyV1` leaves a lexicographically ascending index
where `stdStableSort2KeyV2` leaves a descending one. The disagreement is one of direction
only and is not particular to one store. -/
theorem comp2keyV1_mirrors_comp2keyV2 (data : ChunkStore) (orderings : List ValueIndex)
    (hd : Int64Store data) (hn : Column1NonNeg data)
    (_h : LogicalIndexOver data orderings) :
    (∀ lhs rhs, comp2keyV1 data lhs rhs = comp2keyV2 data rhs lhs ∧
        comp2keyV1 data lhs rhs = compStable2KeyV2 data rhs lhs) ∧
      stdStableSort2KeyV1 data orderings =
        std_stable_sort (fun lhs rhs => compStable2KeyV2 data rhs lhs) orderings ∧
      Ascending2 data (stdStableSort2KeyV1 data orderings) ∧
      Descending2 data (stdStableSort2KeyV2 data orderings) := by
  have hswap : comp2keyV1 data = fun lhs rhs => compStable2KeyV2 data rhs lhs := by
    funext lhs rhs
    rw [compStable2KeyV2_eq]
    exact comp2keyV1_eq_swap hd hn lhs rhs
  refine ⟨?_, ?_, ?_, ?_⟩
  · intro lhs rhs
    refine ⟨comp2keyV1_eq_swap hd hn lhs rhs, ?_⟩
    rw [compStable2KeyV2_eq]
    exact comp2keyV1_eq_swap hd hn lhs rhs
  · unfold stdStableSort2KeyV1
    rw [hswap]
  · exact ascending2_of_sortedBy hd hn
      (std_stable_sort_sorted (comp2keyV1_strictWeak data) orderings)
  · unfold stdStableSort2KeyV2
    rw [compStable2KeyV2_eq]
    exact descending2_of_sortedBy
      (std_stable_sort_sorted (comp2keyV2_strictWeak data) orderings)

/-- C6. For every chunk store with aligned columns 0 and 1 and every logical index over it,
the index returned by `stdSort2keyV2` and the index returned by `stdStableSort2KeyV2` are
lexicographically descending: for `i + 1 < length`, either the column-0 value at `i` is
greater than at `i + 1`, or they are equal and the column-1 value at `i` is at least that
at `i + 1`. -/
theorem twoStep_sorts_descending (data : ChunkStore) (orderings : List ValueIndex)
    (_ha : AlignedColumns data) (_h : LogicalIndexOver data orderings) :
    Descending2 data (stdSort2keyV2 data orderings) ∧
      Descending2 data (stdStableSort2KeyV2 data orderings) := by
  refine ⟨descending2_of_sortedBy (std_sort_sorted (comp2keyV2_strictWeak data) orderings), ?_⟩
  unfold stdStableSort2KeyV2
  rw [compStable2KeyV2_eq]
  exact descending2_of_sortedBy (std_stable_sort_sorted (comp2keyV2_strictWeak data) orderings)

/-- C6 on the two-key store: rows `(1,0) (2,0) (1,3)` come out as `(2,0) (1,3) (1,0)`. -/
theorem twoStep_sorts_descending_witness :
    AlignedColumns twoKeyStore ∧ LogicalIndexOver twoKeyStore (identitySeq twoKeyStore) ∧
      stdSort2keyV2 twoKeyStore (identitySeq twoKeyStore) =
        [ValueIndex.mk 0 1, ValueIndex.mk 0 2, ValueIndex.mk 0 0] ∧
      Descending2 twoKeyStore (stdSort2keyV2 twoKeyStore (identitySeq twoKeyStore)) ∧
      Descending2 twoKeyStore (stdStableSort2KeyV2 twoKeyStore (identitySeq twoKeyStore)) :=
  ⟨by decide, by decide, by decide,
    twoStep_sorts_descending twoKeyStore (identitySeq twoKeyStore) (by decide) (by decide)⟩

/-! ## Stability and idempotence of `stdStableSort` -/

/-- C7. `stdStableSort` is stable: for every chunk store, every logical index over it and
any two row references `r`, `s` with equal column-0 values, if `r` precedes `s` in the
index given to `stdStableSort` then `r` precedes `s` in the index it returns. -/
theorem stdStableSort_stable (data : ChunkStore) (orderings : List ValueIndex)
    (_h : LogicalIndexOver data orderings) (r s : ValueIndex)
    (heq : ValueAt data 0 r = ValueAt data 0 s) (hpre : Precedes r s orderings) :
    Precedes r s (stdStableSort data orderings) := by
  rw [precedes_iff_sublist] at hpre ⊢
  let p : ValueIndex → Bool := fun x => decide (ValueAt data 0 x = ValueAt data 0 r)
  have hp : ∀ a b, p a = true → p b = true → comp1key data a b = false := by
    intro a b ha hb
    simp only [p, decide_eq_true_eq] at ha hb
    simp only [comp1key, decide_eq_false_iff_not]
    omega
  have hfilter := filter_std_stable_sort (comp1key data) p hp orderings
  have hrs : [r, s].filter p = [r, s] := by
    simp [p, heq]
  have h1 : List.Sublist [r, s] (orderings.filter p) := by
    have := List.Sublist.filter p hpre
    rwa [hrs] at this
  unfold stdStableSort
  rw [← hfilter] at h1
  exact h1.trans (List.filter_sublist _)

/-- End-to-end scenario of C7: the chunk `[5, 3, 3, 1]` in natural order sorts to offsets
`[0, 1, 2, 3]`, offset 1 before offset 2. -/
theorem stdStableSort_stable_witness :
    InitOrderings tieStore [] = some (identitySeq tieStore) ∧
      LogicalIndexOver tieStore (identitySeq tieStore) ∧
      ValueAt tieStore 0 (ValueIndex.mk 0 1) = ValueAt tieStore 0 (ValueIndex.mk 0 2) ∧
      stdStableSort tieStore (identitySeq tieStore) =
        [ValueIndex.mk 0 0, ValueIndex.mk 0 1, ValueIndex.mk 0 2, ValueIndex.mk 0 3] ∧
      (stdStableSort tieStore (identitySeq tieStore)).map (ValueAt tieStore 0) =
        [5, 3, 3, 1] ∧
      Precedes (ValueIndex.mk 0 1) (ValueIndex.mk 0 2)
        (stdStableSort tieStore (identitySeq tieStore)) :=
  ⟨by decide, by decide, by decide, by decide, by decide,
    stdStableSort_stable tieStore (identitySeq tieStore) (by decide)
      (ValueIndex.mk 0 1) (ValueIndex.mk 0 2) (by decide)
      ⟨1, 2, by decide, by decide, by decide⟩⟩

/-- C8. For every chunk store and every logical index over it: if the index is already in
descending order of column 0 then `stdStableSort` returns it unchanged, element for
element; in particular sorting the output of `stdStableSort` again returns that output. -/
theorem stdStableSort_idempotent (data : ChunkStore) (orderings : List ValueIndex)
    (_h : LogicalIndexOver data orderings) :
    (Descending1 data orderings → stdStableSort data orderings = orderings) ∧
      stdStableSort data (stdStableSort data orderings) = stdStableSort data orderings :=
  ⟨fun hdesc => std_stable_sort_of_sorted _ _ (sortedBy_of_descending1 hdesc),
    std_stable_sort_of_sorted _ _
      (std_stable_sort_sorted (comp1key_strictWeak data) orderings)⟩

/-- C8 on the scenarios: the tie index `[5, 3, 3, 1]` is already descending and is returned
unchanged; the two-chunk index is changed by the first sort and not by the second. -/
theorem stdStableSort_idempotent_witness :
    LogicalIndexOver tieStore (identitySeq tieStore) ∧
      stdStableSort tieStore (identitySeq tieStore) = identitySeq tieStore ∧
      LogicalIndexOver twoChunkStore (identitySeq twoChunkStore) ∧
      stdStableSort twoChunkStore (identitySeq twoChunkStore) ≠ identitySeq twoChunkStore ∧
      stdStableSort twoChunkStore (stdStableSort twoChunkStore (identitySeq twoChunkStore)) =
        stdStableSort twoChunkStore (identitySeq twoChunkStore) :=
  ⟨by decide,
    (stdStableSort_idempotent tieStore (identitySeq tieStore) (by decide)).1
      (descending1_of_sortedBy (by unfold SortedBy; decide)),
    by decide, by decide,
    (stdStableSort_idempotent twoChunkStore (identitySeq twoChunkStore) (by decide)).2⟩

/-! ## The packed key -/

/-- C9. For all 64-bit `a1 b1 a2 b2`: if neither row has `a = INT64_MIN` together with
`b < 0`, the packed key `(int128(a) << 64) + b` of the first row is less than that of the
second exactly when `a1 < a2`, or `a1 = a2` and `b1 < b2` (negative `b` included); and the
exact value `a * 2^64 + b` leaves the `__int128_t` range exactly when `a = INT64_MIN` and
`b < 0`. -/
theorem packedKey_lexicographic (a1 b1 a2 b2 : Int) (ha1 : IsInt64 a1) (hb1 : IsInt64 b1)
    (ha2 : IsInt64 a2) (hb2 : IsInt64 b2) :
    (¬ (a1 = INT64_MIN ∧ b1 < 0) → ¬ (a2 = INT64_MIN ∧ b2 < 0) →
        (packedKey a1 b1 < packedKey a2 b2 ↔ a1 < a2 ∨ (a1 = a2 ∧ b1 < b2))) ∧
      (¬ IsInt128 (a1 * 2 ^ 64 + b1) ↔ (a1 = INT64_MIN ∧ b1 < 0)) ∧
      (IsInt128 (a1 * 2 ^ 64 + b1) → packedKey a1 b1 = a1 * 2 ^ 64 + b1) := by
  refine ⟨?_, ?_, ?_⟩
  · intro h1 h2
    rw [packedKey_exact ha1 hb1 h1, packedKey_exact ha2 hb2 h2]
    exact packed_lt_iff_lex hb1 hb2
  · rw [isInt128_packed_iff ha1 hb1, not_not]
  · intro h
    exact packedKey_exact ha1 hb1 ((isInt128_packed_iff ha1 hb1).mp h)

/-- C9 on rows with negative secondary keys: `(1, -5)` is below `(1, -3)`, and
`(INT64_MIN, -1)` is the overflowing shape. -/
theorem packedKey_lexicographic_witness :
    IsInt64 1 ∧ IsInt64 (-5) ∧ IsInt64 (-3) ∧
      packedKey 1 (-5) < packedKey 1 (-3) ∧
      ¬ IsInt128 (INT64_MIN * 2 ^ 64 + (-1)) :=
  ⟨by decide, by decide, by decide,
    ((packedKey_lexicographic 1 (-5) 1 (-3) (by decide) (by decide) (by decide)
      (by decide)).1 (by decide) (by decide)).mpr (Or.inr ⟨rfl, by decide⟩),
    (packedKey_lexicographic INT64_MIN (-1) 0 0 (by decide) (by decide) (by decide)
      (by decide)).2.1.mpr ⟨rfl, by decide⟩⟩

/-! ## `InitOrderings` appends -/

/-- C10 as stated, for every chunk store, fails twice. When column 0 has no chunk the read
of `data_[0][0]->length()` is undefined and `InitOrderings` yields no index at all, so it
does not yield `L` followed by the identity sequence. When the only chunk has no row the
second call returns the (empty) identity sequence again, which is still a permutation of
the valid references. -/
theorem initOrderings_appends_unguarded :
    InitOrderings noChunkStore [] = none ∧
      InitOrderings noChunkStore [] ≠ some ([] ++ identitySeq noChunkStore) ∧
      totalRows emptyChunkStore = 0 ∧
      InitOrderings emptyChunkStore [] = some (identitySeq emptyChunkStore) ∧
      (InitOrderings emptyChunkStore []).bind (InitOrderings emptyChunkStore) =
        some (identitySeq emptyChunkStore) ∧
      (identitySeq emptyChunkStore ++ identitySeq emptyChunkStore).Perm
        (identitySeq emptyChunkStore) ∧
      (identitySeq emptyChunkStore ++ identitySeq emptyChunkStore).Nodup := by
  decide

/-- C10, amended. For every chunk store with at least one column-0 chunk, `InitOrderings`
appends: from any index `L` it returns `L` followed by the identity sequence of the store.
Run twice from the empty index it returns an index of twice the row count in which every
valid reference occurs exactly twice; the first result is a permutation of the valid
references, and when the store has at least one row the second is not. -/
theorem initOrderings_appends (data : ChunkStore) (h : 0 < (data.getD 0 []).length) :
    (∀ L, InitOrderings data L = some (L ++ identitySeq data)) ∧
      InitOrderings data [] = some (identitySeq data) ∧
      (InitOrderings data []).bind (InitOrderings data) =
        some (identitySeq data ++ identitySeq data) ∧
      (identitySeq data ++ identitySeq data).length = 2 * totalRows data ∧
      (∀ r, ValidRef data 0 r → (identitySeq data ++ identitySeq data).count r = 2) ∧
      (identitySeq data).Nodup ∧
      (0 < totalRows data → ¬ (identitySeq data ++ identitySeq data).Nodup ∧
        ¬ (identitySeq data ++ identitySeq data).Perm (identitySeq data)) := by
  have hone : ∀ r, ValidRef data 0 r → (identitySeq data).count r = 1 := fun r hr =>
    List.count_eq_one_of_mem (nodup_identitySeq data) (mem_identitySeq.mpr hr)
  refine ⟨fun L => initOrderings_eq data L h, ?_, ?_, ?_, ?_, nodup_identitySeq data, ?_⟩
  · rw [initOrderings_eq data [] h, List.nil_append]
  · rw [initOrderings_eq data [] h, List.nil_append, Option.some_bind,
      initOrderings_eq data _ h]
  · rw [List.length_append, length_identitySeq]
    omega
  · intro r hr
    rw [List.count_append, hone r hr]
  · intro hpos
    have hlen := length_identitySeq data
    constructor
    · intro hnd
      cases hl : identitySeq data with
      | nil => rw [hl] at hlen; simp at hlen; omega
      | cons x xs =>
        rw [hl] at hnd
        have := (List.nodup_append.mp hnd).2.2
        exact this (List.mem_cons_self x xs) (List.mem_cons_self x xs)
    · intro hperm
      have := hperm.length_eq
      rw [List.length_append, hlen] at this
      omega

/-- The amended C10 on the two-chunk store, as the `BM_InitOrderings` loop runs it. -/
theorem initOrderings_appends_witness :
    0 < (twoChunkStore.getD 0 []).length ∧
      (InitOrderings twoChunkStore []).bind (InitOrderings twoChunkStore) =
        some [ValueIndex.mk 0 0, ValueIndex.mk 0 1, ValueIndex.mk 1 0, ValueIndex.mk 1 1,
          ValueIndex.mk 0 0, ValueIndex.mk 0 1, ValueIndex.mk 1 0, ValueIndex.mk 1 1] ∧
      (identitySeq twoChunkStore ++ identitySeq twoChunkStore).length =
        2 * totalRows twoChunkStore :=
  ⟨by decide, by decide, (initOrderings_appends twoChunkStore (by decide)).2.2.2.1⟩

end SortingBenchmark
